import Mathlib

/-
Verification development for the FFmpegGTK conversion pipeline
(app/converter.py).  The definitions below are a shallow embedding of the
command builder (do_convert / do_crop), the stderr progress parser
(write_to_buffer together with DURATION_PATTERN), the sequential job
runner (convert), the cancellation handler (on_cancel) and the file-add
operation (append_files).  GUI widgets, logging and the external
processes themselves are modelled as explicit parameters or ghost state.
-/

/- ---------------------------------------------------------------- -/
/- Small helpers                                                     -/
/- ---------------------------------------------------------------- -/

/-- Update the element at position `n` of a list in place, as the GTK list
store does with set_value on a row iterator.  Out-of-range indexes leave
the list unchanged. -/
def listUpd {α : Type} (l : List α) (n : Nat) (f : α → α) : List α :=
  match l, n with
  | [], _ => []
  | a :: t, 0 => f a :: t
  | a :: t, Nat.succ m => a :: listUpd t m f

/-- Numeric value of a decimal digit character. -/
def d1 (c : Char) : Nat := c.toNat - 48

/-- Character of `s` at index `j` (a default is returned out of range;
all uses are guarded by length checks). -/
def chAt (s : List Char) (j : Nat) : Char := (s.get? j).getD '*'

/-- Two-digit decimal number starting at index `j`, as produced by
int() on a two-digit capture group. -/
def dig2 (s : List Char) (j : Nat) : Nat := 10 * d1 (chAt s j) + d1 (chAt s (j + 1))

/-- Whether `n` occurs as a contiguous run inside `h`; this is the
Python substring test `n in h` on character lists. -/
def containsSub (n : List Char) : List Char → Bool
  | [] => n.isEmpty
  | c :: rest => (( c :: rest).take n.length = n) || containsSub n rest

/-- Python substring test on strings. -/
def containsStr (hay needle : String) : Bool := containsSub needle.toList hay.toList

/-- Python truthiness of an optional string: None and the empty string
are falsy. -/
def pyFalsy : Option String → Bool
  | none => true
  | some s => s = ""

/- ---------------------------------------------------------------- -/
/- pathlib model (POSIX paths, os.sep = "/")                         -/
/- ---------------------------------------------------------------- -/

/-- Final component of a path: the characters after the last slash
(pathlib Path.name). -/
def pyName (p : String) : String :=
  String.mk ((p.toList.reverse.takeWhile (fun c => c ≠ '/')).reverse)

/-- str(Path(p).parent) for a normalised POSIX path whose final
component is non-empty. -/
def pyParent (p : String) : String :=
  match (p.toList.reverse.dropWhile (fun c => c ≠ '/')).reverse with
  | [] => "."
  | ['/'] => "/"
  | l => String.mk l.dropLast

/-- Path.stem: the final component without its last extension; a dot in
first position (hidden file) does not start an extension. -/
def pyStem (p : String) : String :=
  let n := (pyName p).toList
  let ext := n.reverse.takeWhile (fun c => c ≠ '.')
  if ext.length = n.length then String.mk n
  else if ext.length + 1 = n.length then String.mk n
  else String.mk (n.take (n.length - ext.length - 1))

/-- Path.suffix: the last extension of the final component, dot
included, or the empty string. -/
def pySuffix (p : String) : String :=
  let n := (pyName p).toList
  let ext := n.reverse.takeWhile (fun c => c ≠ '.')
  if ext.length = n.length then ""
  else if ext.length + 1 = n.length then ""
  else String.mk ( '.' :: ext.reverse)

/-- Python str.split(" "): split on every single space, keeping empty
pieces. -/
def splitSp : List Char → List (List Char)
  | [] => [[]]
  | c :: t =>
    let r := splitSp t
    if c = ' ' then [] :: r
    else
      match r with
      | h :: t2 => (c :: h) :: t2
      | [] => [[c]]

/-- The params string of a preset split into arguments,
prm.get("params").split(" "). -/
def pySplitSpace (s : String) : List String := (splitSp s.toList).map String.mk

/- ---------------------------------------------------------------- -/
/- Command builder (do_convert, do_crop)                             -/
/- ---------------------------------------------------------------- -/

/-- Output file computed by do_convert for one row: destination folder
(source folder or the configured base), the input stem plus the preset
extension, and the CONVERTED!_ marker exactly when the result would
collide with the input. -/
def convOutFile (useSrc : Bool) (base : String) (ext : String) (inFile : String) : String :=
  let outPath := (if useSrc then pyParent inFile else base) ++ "/"
  let outFile := outPath ++ pyStem inFile ++ "." ++ ext
  if inFile = outFile then outPath ++ "CONVERTED!_" ++ pyStem inFile ++ "." ++ ext
  else outFile

/-- The ffmpeg invocation built by do_convert for one input file. -/
def buildCommand (params ext : String) (overwrite useSrc : Bool) (base inFile : String) :
    List String :=
  ["ffmpeg", "-i", inFile] ++ pySplitSpace params ++
    [if overwrite then "-y" else "-n", convOutFile useSrc base ext inFile]

/-- Output file computed by do_crop: the f-string
out_path + stem + "_CROP." + suffix, where suffix is Path.suffix and so
still carries its leading dot. -/
def cropOutFile (useSrc : Bool) (base inFile : String) : String :=
  ((if useSrc then pyParent inFile else base) ++ "/") ++ pyStem inFile ++ "_CROP." ++
    pySuffix inFile

/-- A preset profile record. -/
structure Preset where
  params : String
  extension : String
deriving DecidableEq

/-- dict.get keyed by an optional selection (get_active_text may be
None); a None key is found in no dictionary. -/
def alGet {α : Type} : List (String × α) → Option String → Option α
  | _, none => none
  | [], some _ => none
  | (k, v) :: t, some s => if k = s then some v else alGet t (some s)

/-- Outcome of the front half of do_convert. -/
inductive ConvResult where
  | errMsg (msg : String)
  | pyError
  | run (cmds : List (List String))
deriving DecidableEq

/-- do_convert up to the hand-off to convert(): the settings check
`if not fmt and not option`, the preset lookup
self._presets.get(fmt).get(option) (an absent category or profile makes
the following attribute access raise, modelled as pyError), and the
command list built for every row of the files model. -/
def do_convert (presets : List (String × List (String × Preset)))
    (fmt opt : Option String) (overwrite useSrc : Bool) (base : String)
    (files : List String) : ConvResult :=
  if pyFalsy fmt && pyFalsy opt then ConvResult.errMsg "Check the settings!"
  else
    match alGet presets fmt with
    | none => ConvResult.pyError
    | some profiles =>
      match alGet profiles opt with
      | none => ConvResult.pyError
      | some prm =>
        ConvResult.run
          (files.map (fun f => buildCommand prm.params prm.extension overwrite useSrc base f))

/- ---------------------------------------------------------------- -/
/- DURATION_PATTERN regex model                                      -/
/- ---------------------------------------------------------------- -/

/-
re.match with pattern (.*Duration:)?.*(dd):(dd):(dd.dd).* where d is a
digit and the lone dot matches any character except a newline.  With a
backtracking engine the optional first group is taken greedily: it ends
at the last occurrence of "Duration:" that still leaves a timestamp to
the right; the timestamp group is then the last position where
dd:dd:dd?dd matches.  Dots cannot cross the newline that readline
leaves at the end of the line, so matching happens inside the first
line body.
-/

/-- Whether the eleven-character timestamp shape dd:dd:dd?dd matches at
index `j` (the character at j+8 is the any-character dot of the
pattern). -/
def tsAt (s : List Char) (j : Nat) : Bool :=
  decide (j + 11 ≤ s.length) &&
  (chAt s j).isDigit && (chAt s (j + 1)).isDigit && (chAt s (j + 2) = ':') &&
  (chAt s (j + 3)).isDigit && (chAt s (j + 4)).isDigit && (chAt s (j + 5) = ':') &&
  (chAt s (j + 6)).isDigit && (chAt s (j + 7)).isDigit &&
  (chAt s (j + 9)).isDigit && (chAt s (j + 10)).isDigit

/-- Whether the literal "Duration:" occupies indexes i .. i+8. -/
def durAt (s : List Char) (i : Nat) : Bool :=
  (s.drop i).take 9 = "Duration:".toList

/-- Whether a timestamp occurs at or after index `i`. -/
def hasTsFrom (s : List Char) (i : Nat) : Bool :=
  (List.range s.length).any (fun j => decide (i ≤ j) && tsAt s j)

/-- The greedy (last) timestamp position at or after index `i`. -/
def lastTsFrom (s : List Char) (i : Nat) : Option Nat :=
  ((List.range s.length).filter (fun j => decide (i ≤ j) && tsAt s j)).getLast?

/-- The greedy end of the optional first group: the last index where
"Duration:" starts and a timestamp is still available to its right. -/
def durStart (s : List Char) : Option Nat :=
  ((List.range s.length).filter (fun i => durAt s i && hasTsFrom s (i + 9))).getLast?

/-- Captured groups of DURATION_PATTERN: whether group 1 participated,
the two leading two-digit groups as numbers, and the five raw
characters of the dd.dd group. -/
structure MRes where
  hasDur : Bool
  hh : Nat
  mm : Nat
  sec : List Char
deriving DecidableEq

/-- The result of re.match(DURATION_PATTERN, line). -/
def lineMatch (cs : List Char) : Option MRes :=
  let s := cs.takeWhile (fun c => c ≠ '\n')
  match durStart s with
  | some i =>
    match lastTsFrom s (i + 9) with
    | some j =>
      some { hasDur := true, hh := dig2 s j, mm := dig2 s (j + 3), sec := (s.drop (j + 6)).take 5 }
    | none => none
  | none =>
    match lastTsFrom s 0 with
    | some j =>
      some { hasDur := false, hh := dig2 s j, mm := dig2 s (j + 3), sec := (s.drop (j + 6)).take 5 }
    | none => none

/-- Python float() applied to the five characters of the dd.dd group,
in centiseconds (both accepted shapes, dd.dd and a five-digit plain
number, are exact multiples of 1/100, so this is lossless): a failing
parse is a ValueError (none). -/
def pyFloat5 : List Char → Option Nat
  | [a, b, c, d, e] =>
    if c = '.' then
      some ((10 * d1 a + d1 b) * 100 + (10 * d1 d + d1 e))
    else if c.isDigit then
      some ((10000 * d1 a + 1000 * d1 b + 100 * d1 c + 10 * d1 d + d1 e) * 100)
    else none
  | _ => none

/- ---------------------------------------------------------------- -/
/- Queue rows and run state                                          -/
/- ---------------------------------------------------------------- -/

/-- The two icons append_files can choose between. -/
inductive IconKind where
  | video
  | audio
deriving DecidableEq

/-- One row of the files list store (Column.ICON .. Column.IN_PROGRESS). -/
structure Row where
  icon : IconKind
  file : String
  durStr : String
  progress : Option ℤ
  selected : Bool
  converting : Bool
deriving DecidableEq

/-- Application-wide mutable state touched by the conversion pipeline:
the files model, self._duration, self._current_itr, the identity of
self._current_process (by row index), self._in_progress, plus ghost
logs of the processes spawned (row index and argument list) and the
termination signals sent during the current run. -/
structure RunSt where
  rows : List Row
  duration : Nat
  currentItr : Option Nat
  currentProc : Option Nat
  inProgress : Bool
  spawned : List (Nat × List String)
  termed : List Nat
deriving DecidableEq

/-- set_value(itr, Column.PROGRESS, v). -/
def setProgress (st : RunSt) (p : Nat) (v : ℤ) : RunSt :=
  { st with rows := listUpd st.rows p (fun r => { r with progress := some v }) }

/-- set_value(itr, Column.SELECTED, b). -/
def setSelected (st : RunSt) (p : Nat) (b : Bool) : RunSt :=
  { st with rows := listUpd st.rows p (fun r => { r with selected := b }) }

/-- set_value(itr, Column.IN_PROGRESS, b). -/
def setConverting (st : RunSt) (p : Nat) (b : Bool) : RunSt :=
  { st with rows := listUpd st.rows p (fun r => { r with converting := b }) }

/-- One line of stderr through write_to_buffer.  Times are held in
centiseconds, which re-scales self._duration and d_time exactly; the
stored percentage int(d_time * 100 / self._duration) is the floor of a
non-negative ratio and is computed here as natural division (the two
agree, see the floor lemmas below).  A None result is an exception
escaping the callback (ValueError from float(), or set_value on a
missing current row). -/
def write_to_buffer (st : RunSt) (line : String) : Option RunSt :=
  match lineMatch line.toList with
  | none => some st
  | some r =>
    match pyFloat5 r.sec with
    | none => none
    | some v =>
      let dTime : Nat := (r.hh * 3600 + r.mm * 60) * 100 + v
      if r.hasDur then some { st with duration := dTime }
      else if 0 < st.duration then
        match st.currentItr with
        | some p => some (setProgress st p ((dTime * 100 / st.duration : Nat) : ℤ))
        | none => none
      else some st

/-- All stderr lines of one process through write_to_buffer; an
exception removes the io watch, so the remaining lines are not read. -/
def runLines (st : RunSt) : List String → RunSt
  | [] => st
  | l :: rest =>
    match write_to_buffer st l with
    | some st' => runLines st' rest
    | none => st

/-- One ffmpeg job as the run loop sees it: the row index carried with
the command, the argument list, the stderr stream the process will
produce and its exit status (returned by wait and never read). -/
structure Job where
  rowIdx : Nat
  cmd : List String
  stderr : List String
  exitCode : ℤ
deriving DecidableEq

/-- A job with its exit status scrubbed. -/
def eraseCode (j : Job) : Job := { j with exitCode := 0 }

/-- on_cancel confirmed: clear the in-progress flag and send terminate()
to the current process if there is one. -/
def cancelStep (st : RunSt) : RunSt :=
  { st with inProgress := false,
            termed := st.termed ++ (match st.currentProc with
                                    | some p => [p]
                                    | none => []) }

/-- One executed job of the loop body of convert(): Popen is recorded
in the ghost log and becomes the current process, the previous current
row is forced to 100, the row becomes current and converting, the
stderr of the process is parsed, and after wait the row is deselected.
The exit status returned by wait is discarded. -/
def execJob (st : RunSt) (j : Job) : RunSt :=
  let st2 := { st with spawned := st.spawned ++ [(j.rowIdx, j.cmd)],
                       currentProc := some j.rowIdx }
  let st3 := match st2.currentItr with
             | some p => setProgress st2 p 100
             | none => st2
  let st4 := { st3 with currentItr := some j.rowIdx }
  let st5 := setConverting st4 j.rowIdx true
  let st6 := runLines st5 j.stderr
  setSelected st6 j.rowIdx false

/-- The body of convert(): iterate the built commands in order; a
cancellation between jobs fires before the flag poll of iteration
`k`.  Rows that vanished give ValueError (skip), unselected rows are
skipped, and the remaining rows are executed. -/
def convLoop (cAt : Option Nat) : List Job → Nat → RunSt → RunSt
  | [], _, st => st
  | j :: rest, k, st =>
    let st1 := if cAt = some k then cancelStep st else st
    if st1.inProgress then
      match st1.rows.get? j.rowIdx with
      | none => convLoop cAt rest (k + 1) st1
      | some row =>
        if row.selected then convLoop cAt rest (k + 1) (execJob st1 j)
        else convLoop cAt rest (k + 1) st1
    else st1

/-- convert(): set the in-progress flag, run the loop, and in the
finally block (when not cancelled) clear the flag and force the last
current row to 100.  The ghost logs start empty for each run. -/
def convert (st : RunSt) (jobs : List Job) (cAt : Option Nat) : RunSt :=
  let st0 := { st with inProgress := true, spawned := [], termed := [] }
  let st1 := convLoop cAt jobs 0 st0
  if st1.inProgress then
    let st2 := { st1 with inProgress := false }
    match st2.currentItr with
    | some p => setProgress st2 p 100
    | none => st2
  else st1

/- ---------------------------------------------------------------- -/
/- append_files                                                      -/
/- ---------------------------------------------------------------- -/

/-- append_files: one row per file whose MIME type guess is truthy,
with the video icon when the guessed type contains "video" and the
audio icon otherwise; the row starts with a probed duration string, no
progress, selected and not converting.  `guess` stands for
mimetypes.guess_type and `durOf` for the external duration probe. -/
def append_files (guess : String → Option String) (durOf : String → String) :
    List String → List Row
  | [] => []
  | f :: fs =>
    match guess f with
    | some m =>
      if m = "" then append_files guess durOf fs
      else
        { icon := if containsStr m "video" then IconKind.video else IconKind.audio,
          file := f, durStr := durOf f, progress := none,
          selected := true, converting := false } :: append_files guess durOf fs
    | none => append_files guess durOf fs

/- ---------------------------------------------------------------- -/
/- Concrete states used by the examples                              -/
/- ---------------------------------------------------------------- -/

/-- A freshly appended video row. -/
def sampleRow : Row :=
  { icon := IconKind.video, file := "/a/b/clip.mov", durStr := "0:01:40",
    progress := none, selected := true, converting := false }

/-- Parser state mid-job: one row which is current, no duration seen. -/
def parserSt0 : RunSt :=
  { rows := [sampleRow], duration := 0, currentItr := some 0, currentProc := none,
    inProgress := true, spawned := [], termed := [] }

/-- A fresh two-row application state before any run. -/
def freshSt2 : RunSt :=
  { rows := [sampleRow, { sampleRow with file := "/a/b/clip2.mov" }],
    duration := 0, currentItr := none, currentProc := none,
    inProgress := false, spawned := [], termed := [] }

/-- A fresh three-row application state before any run. -/
def freshSt3 : RunSt :=
  { rows := [sampleRow, { sampleRow with file := "/a/b/clip2.mov" },
             { sampleRow with file := "/a/b/clip3.mov" }],
    duration := 0, currentItr := none, currentProc := none,
    inProgress := true, spawned := [], termed := [] }

/-- A row satisfies this when its progress column, if set, is a
non-negative percentage value. -/
def progOk (r : Row) : Prop := ∀ n : ℤ, r.progress = some n → 0 ≤ n

/-- A one-category, one-profile preset catalog. -/
def demoPresets : List (String × List (String × Preset)) :=
  [("Video", [("MP4", { params := "-c:v libx264", extension := "mp4" })])]

/-- Jobs of a run in which the first process reports a duration and the
second process emits only a bare timestamp line. -/
def staleJobs : List Job :=
  [ { rowIdx := 0, cmd := ["ffmpeg", "-i", "/a/b/clip.mov"],
      stderr := ["Duration: 00:01:40.00"], exitCode := 0 },
    { rowIdx := 1, cmd := ["ffmpeg", "-i", "/a/b/clip2.mov"],
      stderr := ["time=00:00:50.00"], exitCode := 0 },
    { rowIdx := 2, cmd := ["ffmpeg", "-i", "/a/b/clip3.mov"],
      stderr := [], exitCode := 0 } ]

/-- First run of the stale-row scenario: the only selected job reports a
duration and a 37 percent timestamp before the run is cancelled. -/
def staleRunAJobs : List Job :=
  [ { rowIdx := 0, cmd := ["ffmpeg", "-i", "/a/b/clip.mov"],
      stderr := ["Duration: 00:01:40.00", "time=00:00:37.00"], exitCode := 0 },
    { rowIdx := 1, cmd := ["ffmpeg", "-i", "/a/b/clip2.mov"],
      stderr := [], exitCode := 0 } ]

/-- Second run of the stale-row scenario: both rows get a job again. -/
def staleRunBJobs : List Job :=
  [ { rowIdx := 0, cmd := ["ffmpeg", "-i", "/a/b/clip.mov"], stderr := [], exitCode := 0 },
    { rowIdx := 1, cmd := ["ffmpeg", "-i", "/a/b/clip2.mov"], stderr := [], exitCode := 0 } ]

/- ---------------------------------------------------------------- -/
/- Supporting lemmas                                                 -/
/- ---------------------------------------------------------------- -/

theorem listUpd_get?_ne {α : Type} (l : List α) (n i : Nat) (f : α → α) (h : n ≠ i) :
    (listUpd l n f).get? i = l.get? i := by
  induction l generalizing n i with
  | nil => simp [listUpd]
  | cons a t ih =>
    cases n with
    | zero =>
      cases i with
      | zero => exact absurd rfl h
      | succ j => simp [listUpd]
    | succ m =>
      cases i with
      | zero => simp [listUpd]
      | succ j => simpa [listUpd] using ih m j (by omega)

theorem mem_listUpd {α : Type} (l : List α) (n : Nat) (f : α → α) (a : α)
    (h : a ∈ listUpd l n f) : a ∈ l ∨ ∃ b, b ∈ l ∧ a = f b := by
  induction l generalizing n with
  | nil => simp [listUpd] at h
  | cons c t ih =>
    cases n with
    | zero =>
      rcases (List.mem_cons.mp h) with h1 | h1
      · exact Or.inr ⟨c, List.mem_cons_self c t, h1⟩
      · exact Or.inl (List.mem_cons_of_mem c h1)
    | succ m =>
      rcases (List.mem_cons.mp h) with h1 | h1
      · exact Or.inl (by simp [h1])
      · rcases ih m h1 with h2 | ⟨b, hb, hab⟩
        · exact Or.inl (List.mem_cons_of_mem c h2)
        · exact Or.inr ⟨b, List.mem_cons_of_mem c hb, hab⟩

/-- Updating one entry with a function that preserves a projection
preserves that projection everywhere. -/
theorem listUpd_get?_map {α β : Type} (l : List α) (p i : Nat) (f : α → α) (g : α → β)
    (hf : ∀ a, g (f a) = g a) :
    ((listUpd l p f).get? i).map g = (l.get? i).map g := by
  induction l generalizing p i with
  | nil => simp [listUpd]
  | cons a t ih =>
    cases p with
    | zero =>
      cases i with
      | zero => simp [listUpd, hf]
      | succ j => simp [listUpd]
    | succ m =>
      cases i with
      | zero => simp [listUpd]
      | succ j => simpa [listUpd] using ih m j

theorem natDiv_floor (a b : Nat) : ((a / b : Nat) : ℤ) = ⌊(a : ℚ) / (b : ℚ)⌋ := by
  have h := Rat.floor_intCast_div_natCast (a : ℤ) b
  push_cast at h
  rw [h]
  exact Int.ofNat_tdiv a b

/-- Every successful write_to_buffer step leaves the state unchanged,
updates only the duration, or writes a non-negative percentage into the
current row. -/
theorem wtb_cases (st : RunSt) (l : String) (st' : RunSt)
    (h : write_to_buffer st l = some st') :
    st' = st ∨ (∃ d, st' = { st with duration := d }) ∨
      (∃ p v, st.currentItr = some p ∧ st' = setProgress st p ((v : Nat) : ℤ)) := by
  simp only [write_to_buffer] at h
  split at h
  · exact Or.inl (Option.some.inj h).symm
  · split at h
    · exact Option.noConfusion h
    · split at h
      · exact Or.inr (Or.inl ⟨_, (Option.some.inj h).symm⟩)
      · split at h
        · split at h
          next p heq => exact Or.inr (Or.inr ⟨p, _, heq, (Option.some.inj h).symm⟩)
          next => exact Option.noConfusion h
        · exact Or.inl (Option.some.inj h).symm

/-- write_to_buffer never touches the fields that do not belong to the
parser. -/
theorem wtb_frame (st : RunSt) (l : String) (st' : RunSt)
    (h : write_to_buffer st l = some st') :
    st'.currentItr = st.currentItr ∧ st'.currentProc = st.currentProc ∧
      st'.inProgress = st.inProgress ∧ st'.spawned = st.spawned ∧
      st'.termed = st.termed := by
  rcases wtb_cases st l st' h with rfl | ⟨d, rfl⟩ | ⟨p, v, _, rfl⟩ <;>
    exact ⟨rfl, rfl, rfl, rfl, rfl⟩

/-- write_to_buffer only ever writes into the current row. -/
theorem wtb_rows_other (st : RunSt) (l : String) (st' : RunSt) (i : Nat)
    (h : write_to_buffer st l = some st') (hi : st.currentItr ≠ some i) :
    st'.rows.get? i = st.rows.get? i := by
  rcases wtb_cases st l st' h with rfl | ⟨d, rfl⟩ | ⟨p, v, hp, rfl⟩
  · rfl
  · rfl
  · exact listUpd_get?_ne st.rows p i _ (fun he => hi (he ▸ hp))

theorem runLines_frame (ls : List String) (st : RunSt) :
    (runLines st ls).currentItr = st.currentItr ∧
      (runLines st ls).currentProc = st.currentProc ∧
      (runLines st ls).inProgress = st.inProgress ∧
      (runLines st ls).spawned = st.spawned ∧
      (runLines st ls).termed = st.termed := by
  induction ls generalizing st with
  | nil => exact ⟨rfl, rfl, rfl, rfl, rfl⟩
  | cons l rest ih =>
    simp only [runLines]
    cases h : write_to_buffer st l with
    | none => exact ⟨rfl, rfl, rfl, rfl, rfl⟩
    | some st' =>
      obtain ⟨h1, h2, h3, h4, h5⟩ := wtb_frame st l st' h
      obtain ⟨g1, g2, g3, g4, g5⟩ := ih st'
      exact ⟨g1.trans h1, g2.trans h2, g3.trans h3, g4.trans h4, g5.trans h5⟩

theorem runLines_rows_other (ls : List String) (st : RunSt) (i : Nat)
    (hi : st.currentItr ≠ some i) :
    (runLines st ls).rows.get? i = st.rows.get? i := by
  induction ls generalizing st with
  | nil => rfl
  | cons l rest ih =>
    simp only [runLines]
    cases h : write_to_buffer st l with
    | none => rfl
    | some st' =>
      have hitr : st'.currentItr = st.currentItr := (wtb_frame st l st' h).1
      exact (ih st' (hitr ▸ hi)).trans (wtb_rows_other st l st' i h hi)

/-- Unfolding of write_to_buffer on a line whose match carries the
Duration group. -/
theorem wtb_duration_eq (st : RunSt) (l : String) (r : MRes) (v : Nat)
    (hm : lineMatch l.toList = some r) (hdur : r.hasDur = true)
    (hf : pyFloat5 r.sec = some v) :
    write_to_buffer st l = some { st with duration := (r.hh * 3600 + r.mm * 60) * 100 + v } := by
  simp only [write_to_buffer, hm, hf, hdur, if_true]

/-- Unfolding of write_to_buffer on a bare-timestamp line while a
positive duration is stored and a current row exists. -/
theorem wtb_progress_eq (st : RunSt) (l : String) (r : MRes) (v p : Nat)
    (hm : lineMatch l.toList = some r) (hdur : r.hasDur = false)
    (hf : pyFloat5 r.sec = some v) (hdpos : 0 < st.duration)
    (hitr : st.currentItr = some p) :
    write_to_buffer st l =
      some (setProgress st p
        ((((r.hh * 3600 + r.mm * 60) * 100 + v) * 100 / st.duration : Nat) : ℤ)) := by
  simp only [write_to_buffer, hm, hf, hdur, hitr, if_pos hdpos, Bool.false_eq_true, if_false]

/-- While no duration has been captured (the stored value is still 0),
lines without a Duration group leave the whole parser state unchanged. -/
theorem runLines_no_duration (ls : List String) (st : RunSt) (hd : st.duration = 0)
    (hnd : ∀ l ∈ ls, ∀ r, lineMatch l.toList = some r → r.hasDur = false) :
    runLines st ls = st := by
  induction ls generalizing st with
  | nil => rfl
  | cons l rest ih =>
    simp only [runLines]
    cases h : write_to_buffer st l with
    | none => rfl
    | some st' =>
      have hst : st' = st := by
        simp only [write_to_buffer] at h
        split at h
        · exact (Option.some.inj h).symm
        next r heq =>
          split at h
          · exact Option.noConfusion h
          · have hf : r.hasDur = false := hnd l (List.mem_cons_self l rest) r heq
            rw [hf] at h
            simp only [Bool.false_eq_true, if_false] at h
            rw [if_neg (by omega : ¬ 0 < st.duration)] at h
            exact (Option.some.inj h).symm
      rw [hst]
      exact ih st hd (fun l' hl' => hnd l' (List.mem_cons_of_mem l hl'))

/-- The natural division performed by the model equals the floor of the
percentage that the source computes in seconds. -/
theorem percent_floor (e d : Nat) (hd : 0 < d) :
    ((e * 100 / d : Nat) : ℤ) = ⌊(((e : ℚ) / 100) / ((d : ℚ) / 100)) * 100⌋ := by
  rw [natDiv_floor]
  congr 1
  have hdq : (d : ℚ) ≠ 0 := Nat.cast_ne_zero.mpr (Nat.pos_iff_ne_zero.mp hd)
  push_cast
  field_simp

/- ---------------------------------------------------------------- -/
/- Claim theorems                                                    -/
/- ---------------------------------------------------------------- -/

/-- C1: for a preset with params "-c:v libx264" and extension "mp4",
either overwrite flag, and input /a/b/clip.mov with the source folder
in use, do_convert builds exactly
["ffmpeg", "-i", "/a/b/clip.mov", "-c:v", "libx264", flag,
"/a/b/clip.mp4"]: the params split on single spaces, the overwrite flag
between params and output, and the output being the input directory
plus the input stem plus the preset extension. -/
theorem C1_build_command (b : Bool) (base : String) :
    buildCommand "-c:v libx264" "mp4" b true base "/a/b/clip.mov" =
      ["ffmpeg", "-i", "/a/b/clip.mov", "-c:v", "libx264",
        if b then "-y" else "-n", "/a/b/clip.mp4"] := by
  cases b <;> rfl

/-- C2: a line matched with the Duration group stores the reported
total duration (the stored centiseconds re-read in seconds are
hh * 3600 + mm * 60 + ss.ff); a later bare-timestamp line, while a
positive duration is stored, writes into the current row the floor of
elapsed seconds divided by the duration times 100; and on the concrete
stream "Duration: 00:01:40.00" then "time=00:00:50.00" the stored
progress is 50. -/
theorem C2_progress_scan :
    (∀ (st : RunSt) (l : String) (r : MRes) (v : Nat),
        lineMatch l.toList = some r → r.hasDur = true → pyFloat5 r.sec = some v →
        write_to_buffer st l =
            some { st with duration := (r.hh * 3600 + r.mm * 60) * 100 + v } ∧
          ((((r.hh * 3600 + r.mm * 60) * 100 + v : Nat) : ℚ) / 100) =
            (r.hh : ℚ) * 3600 + (r.mm : ℚ) * 60 + (v : ℚ) / 100) ∧
    (∀ (st : RunSt) (l : String) (r : MRes) (v p : Nat),
        lineMatch l.toList = some r → r.hasDur = false → pyFloat5 r.sec = some v →
        0 < st.duration → st.currentItr = some p →
        write_to_buffer st l =
          some (setProgress st p
            ⌊(((((r.hh * 3600 + r.mm * 60) * 100 + v : Nat) : ℚ) / 100) /
                ((st.duration : ℚ) / 100)) * 100⌋)) ∧
    (runLines parserSt0 ["Duration: 00:01:40.00", "time=00:00:50.00"]).rows.map
        Row.progress = [some 50] := by
  refine ⟨?_, ?_, by decide⟩
  · intro st l r v hm hdur hf
    refine ⟨wtb_duration_eq st l r v hm hdur hf, ?_⟩
    push_cast
    ring
  · intro st l r v p hm hdur hf hdpos hitr
    rw [wtb_progress_eq st l r v p hm hdur hf hdpos hitr,
      percent_floor ((r.hh * 3600 + r.mm * 60) * 100 + v) st.duration hdpos]

/-- Closed instance of C2: the Duration line of the example stores
10000 centiseconds, and the timestamp line then stores the floor of
the 50 percent ratio. -/
theorem C2_progress_scan_witness :
    write_to_buffer parserSt0 "Duration: 00:01:40.00" =
        some { parserSt0 with duration := (0 * 3600 + 1 * 60) * 100 + 4000 } ∧
      write_to_buffer { parserSt0 with duration := 10000 } "time=00:00:50.00" =
        some (setProgress { parserSt0 with duration := 10000 } 0
          ⌊(((((0 * 3600 + 0 * 60) * 100 + 5000 : Nat) : ℚ) / 100) /
              (((10000 : Nat) : ℚ) / 100)) * 100⌋) := by
  constructor
  · exact (C2_progress_scan.1 parserSt0 "Duration: 00:01:40.00"
      { hasDur := true, hh := 0, mm := 1, sec := "40.00".toList } 4000
      (by decide) rfl (by decide)).1
  · exact C2_progress_scan.2.1 { parserSt0 with duration := 10000 } "time=00:00:50.00"
      { hasDur := false, hh := 0, mm := 0, sec := "50.00".toList } 5000 0
      (by decide) rfl (by decide) (by decide) rfl

/-- C3 as stated is false on do_crop: for input /a/b/clip.mov and a
distinct output folder /out there is no collision, yet the output is
not the unchanged computed path; it is /out/clip_CROP..mov, with the
marker always appended and a doubled dot before the extension. -/
theorem C3_counterexample :
    cropOutFile false "/out" "/a/b/clip.mov" = "/out/clip_CROP..mov" ∧
      cropOutFile false "/out" "/a/b/clip.mov" ≠ "/out/clip.mov" ∧
      cropOutFile false "/out" "/a/b/clip.mov" ≠ "/out/clip_CROP.mov" := by
  refine ⟨by decide, by decide, by decide⟩

/-- C3 amended: in conversion mode the CONVERTED!_ marker is inserted
before the stem exactly when the computed output equals the input;
in crop mode the _CROP marker is always appended to the stem,
unconditionally, followed by a dot and then Path.suffix of the input
(which still carries its own leading dot, so the result has a doubled
dot). -/
theorem C3_collision_rules (useSrc : Bool) (base ext inF : String) :
    (inF = ((if useSrc then pyParent inF else base) ++ "/") ++ pyStem inF ++ "." ++ ext →
        convOutFile useSrc base ext inF =
          ((if useSrc then pyParent inF else base) ++ "/") ++ "CONVERTED!_" ++
            pyStem inF ++ "." ++ ext) ∧
      (inF ≠ ((if useSrc then pyParent inF else base) ++ "/") ++ pyStem inF ++ "." ++ ext →
        convOutFile useSrc base ext inF =
          ((if useSrc then pyParent inF else base) ++ "/") ++ pyStem inF ++ "." ++ ext) ∧
      cropOutFile useSrc base inF =
        ((if useSrc then pyParent inF else base) ++ "/") ++ pyStem inF ++ "_CROP." ++
          pySuffix inF := by
  refine ⟨?_, ?_, rfl⟩
  · intro hcol
    simp only [convOutFile]
    rw [if_pos hcol]
  · intro hne
    simp only [convOutFile]
    rw [if_neg hne]

/-- Closed instance of C3 amended: the collision case gains the marker
and the non-collision case is returned unchanged. -/
theorem C3_collision_rules_witness :
    convOutFile true "" "mp4" "/a/b/clip.mp4" = "/a/b/CONVERTED!_clip.mp4" ∧
      convOutFile true "" "mp4" "/a/b/clip.mov" = "/a/b/clip.mp4" := by
  constructor
  · exact ((C3_collision_rules true "" "mp4" "/a/b/clip.mp4").1 (by decide)).trans (by decide)
  · exact ((C3_collision_rules true "" "mp4" "/a/b/clip.mov").2.1 (by decide)).trans (by decide)

/-- C4: with a category selected but no profile selected (or the other
way round) the guard `if not fmt and not option` does not fire, and
do_convert raises an AttributeError on the preset lookup instead of
rejecting with the "Check the settings!" banner; the banner appears
only when both selections are missing.  No process is spawned in
either outcome. -/
theorem C4_settings_check :
    do_convert demoPresets (some "Video") none true true "" ["/a/b/clip.mov"] =
        ConvResult.pyError ∧
      do_convert demoPresets none (some "MP4") true true "" ["/a/b/clip.mov"] =
        ConvResult.pyError ∧
      do_convert demoPresets none none true true "" ["/a/b/clip.mov"] =
        ConvResult.errMsg "Check the settings!" := by
  refine ⟨by decide, by decide, by decide⟩

/-- C10: append_files appends one row exactly for each file whose MIME
guess is truthy, in order, silently skipping the rest; an appended row
carries the video icon exactly when the guessed type contains "video"
and the audio icon otherwise, the probed duration string, no progress,
selected set and converting clear. -/
theorem C10_append_files (guess : String → Option String) (durOf : String → String)
    (files : List String) :
    append_files guess durOf files =
      (files.filter (fun f =>
          match guess f with
          | some m => decide (m ≠ "")
          | none => false)).map
        (fun f =>
          { icon := if containsStr ((guess f).getD "") "video" then IconKind.video
              else IconKind.audio,
            file := f, durStr := durOf f, progress := none,
            selected := true, converting := false }) := by
  induction files with
  | nil => rfl
  | cons f fs ih =>
    cases h : guess f with
    | none => simp [append_files, h, List.filter_cons, ih]
    | some m =>
      by_cases hm : m = ""
      · simp [append_files, h, hm, List.filter_cons, ih]
      · simp [append_files, h, hm, List.filter_cons, ih]

theorem runLines_currentItr (ls : List String) (st : RunSt) :
    (runLines st ls).currentItr = st.currentItr := (runLines_frame ls st).1

theorem runLines_currentProc (ls : List String) (st : RunSt) :
    (runLines st ls).currentProc = st.currentProc := (runLines_frame ls st).2.1

theorem runLines_inProgress (ls : List String) (st : RunSt) :
    (runLines st ls).inProgress = st.inProgress := (runLines_frame ls st).2.2.1

theorem runLines_spawned (ls : List String) (st : RunSt) :
    (runLines st ls).spawned = st.spawned := (runLines_frame ls st).2.2.2.1

theorem runLines_termed (ls : List String) (st : RunSt) :
    (runLines st ls).termed = st.termed := (runLines_frame ls st).2.2.2.2

theorem execJob_frame (st : RunSt) (j : Job) :
    (execJob st j).inProgress = st.inProgress ∧
      (execJob st j).termed = st.termed ∧
      (execJob st j).currentItr = some j.rowIdx ∧
      (execJob st j).currentProc = some j.rowIdx ∧
      (execJob st j).spawned = st.spawned ++ [(j.rowIdx, j.cmd)] := by
  cases hitr : st.currentItr <;>
    simp [execJob, hitr, setProgress, setConverting, setSelected,
      runLines_currentItr, runLines_currentProc, runLines_inProgress,
      runLines_spawned, runLines_termed]

theorem setProgress_rows_other (st : RunSt) (p : Nat) (v : ℤ) (i : Nat) (h : p ≠ i) :
    (setProgress st p v).rows.get? i = st.rows.get? i :=
  listUpd_get?_ne st.rows p i _ h

theorem setSelected_rows_other (st : RunSt) (p : Nat) (b : Bool) (i : Nat) (h : p ≠ i) :
    (setSelected st p b).rows.get? i = st.rows.get? i :=
  listUpd_get?_ne st.rows p i _ h

theorem setConverting_rows_other (st : RunSt) (p : Nat) (b : Bool) (i : Nat) (h : p ≠ i) :
    (setConverting st p b).rows.get? i = st.rows.get? i :=
  listUpd_get?_ne st.rows p i _ h

/-- set_value on the progress column never changes a selected flag. -/
theorem setProgress_selected (st : RunSt) (p : Nat) (v : ℤ) (i : Nat) :
    ((setProgress st p v).rows.get? i).map Row.selected =
      (st.rows.get? i).map Row.selected :=
  listUpd_get?_map st.rows p i _ Row.selected (fun _ => rfl)

/-- set_value on the in-progress column never changes a selected flag. -/
theorem setConverting_selected (st : RunSt) (p : Nat) (b : Bool) (i : Nat) :
    ((setConverting st p b).rows.get? i).map Row.selected =
      (st.rows.get? i).map Row.selected :=
  listUpd_get?_map st.rows p i _ Row.selected (fun _ => rfl)

/-- The parser writes only progress values, never a selected flag. -/
theorem wtb_selected (st : RunSt) (l : String) (st' : RunSt) (i : Nat)
    (h : write_to_buffer st l = some st') :
    (st'.rows.get? i).map Row.selected = (st.rows.get? i).map Row.selected := by
  rcases wtb_cases st l st' h with rfl | ⟨d, rfl⟩ | ⟨p, v, hp, rfl⟩
  · rfl
  · rfl
  · exact setProgress_selected st p _ i

theorem runLines_selected (ls : List String) (st : RunSt) (i : Nat) :
    ((runLines st ls).rows.get? i).map Row.selected =
      (st.rows.get? i).map Row.selected := by
  induction ls generalizing st with
  | nil => rfl
  | cons l rest ih =>
    simp only [runLines]
    cases h : write_to_buffer st l with
    | none => rfl
    | some st' => exact (ih st').trans (wtb_selected st l st' i h)

/-- An executed job changes no selected flag other than its own row's. -/
theorem execJob_selected_other (st : RunSt) (j : Job) (i : Nat) (hne : j.rowIdx ≠ i) :
    ((execJob st j).rows.get? i).map Row.selected =
      (st.rows.get? i).map Row.selected := by
  unfold execJob
  cases h : st.currentItr with
  | none =>
    simp only [h]
    rw [setSelected_rows_other _ _ _ _ hne, runLines_selected, setConverting_selected]
  | some p =>
    simp only [h]
    rw [setSelected_rows_other _ _ _ _ hne, runLines_selected, setConverting_selected,
      setProgress_selected]

/-- An executed job writes only to its own row and to the previously
current row. -/
theorem execJob_rows_other (st : RunSt) (j : Job) (i : Nat)
    (hne : j.rowIdx ≠ i) (hitr : st.currentItr ≠ some i) :
    (execJob st j).rows.get? i = st.rows.get? i := by
  unfold execJob
  cases h : st.currentItr with
  | none =>
    simp only [h]
    rw [setSelected_rows_other _ _ _ _ hne]
    rw [runLines_rows_other _ _ _ (by simp [setConverting]; exact hne)]
    rw [setConverting_rows_other _ _ _ _ hne]
  | some p =>
    have hpi : p ≠ i := fun he => hitr (h.trans (by rw [he]))
    simp only [h]
    rw [setSelected_rows_other _ _ _ _ hne]
    rw [runLines_rows_other _ _ _ (by simp [setConverting]; exact hne)]
    rw [setConverting_rows_other _ _ _ _ hne]
    exact setProgress_rows_other _ p 100 i hpi

theorem progOk_upd_keep (rows : List Row) (p : Nat) (f : Row → Row)
    (hf : ∀ r, (f r).progress = r.progress)
    (h : ∀ r ∈ rows, progOk r) : ∀ r ∈ listUpd rows p f, progOk r := by
  intro r hr
  rcases mem_listUpd rows p f r hr with h1 | ⟨b, hb, rfl⟩
  · exact h r h1
  · intro n hn
    rw [hf b] at hn
    exact h b hb n hn

theorem progOk_upd_set (rows : List Row) (p : Nat) (v : ℤ) (hv : 0 ≤ v)
    (h : ∀ r ∈ rows, progOk r) :
    ∀ r ∈ listUpd rows p (fun r => { r with progress := some v }), progOk r := by
  intro r hr
  rcases mem_listUpd rows p _ r hr with h1 | ⟨b, hb, rfl⟩
  · exact h r h1
  · intro n hn
    have : v = n := Option.some.inj hn
    omega

theorem setProgress_progOk (st : RunSt) (p : Nat) (v : ℤ) (hv : 0 ≤ v)
    (h : ∀ r ∈ st.rows, progOk r) : ∀ r ∈ (setProgress st p v).rows, progOk r :=
  progOk_upd_set st.rows p v hv h

theorem setSelected_progOk (st : RunSt) (p : Nat) (b : Bool)
    (h : ∀ r ∈ st.rows, progOk r) : ∀ r ∈ (setSelected st p b).rows, progOk r :=
  progOk_upd_keep st.rows p _ (fun _ => rfl) h

theorem setConverting_progOk (st : RunSt) (p : Nat) (b : Bool)
    (h : ∀ r ∈ st.rows, progOk r) : ∀ r ∈ (setConverting st p b).rows, progOk r :=
  progOk_upd_keep st.rows p _ (fun _ => rfl) h

theorem wtb_progOk (st : RunSt) (l : String) (st' : RunSt)
    (h : write_to_buffer st l = some st')
    (hok : ∀ r ∈ st.rows, progOk r) : ∀ r ∈ st'.rows, progOk r := by
  rcases wtb_cases st l st' h with rfl | ⟨d, rfl⟩ | ⟨p, v, hp, rfl⟩
  · exact hok
  · exact hok
  · exact setProgress_progOk st p _ (Int.natCast_nonneg v) hok

theorem runLines_progOk (ls : List String) (st : RunSt)
    (hok : ∀ r ∈ st.rows, progOk r) : ∀ r ∈ (runLines st ls).rows, progOk r := by
  induction ls generalizing st with
  | nil => exact hok
  | cons l rest ih =>
    simp only [runLines]
    cases h : write_to_buffer st l with
    | none => exact hok
    | some st' => exact ih st' (wtb_progOk st l st' h hok)

theorem execJob_progOk (st : RunSt) (j : Job)
    (hok : ∀ r ∈ st.rows, progOk r) : ∀ r ∈ (execJob st j).rows, progOk r := by
  unfold execJob
  cases h : st.currentItr with
  | none =>
    simp only [h]
    exact setSelected_progOk _ _ _ (runLines_progOk _ _ (setConverting_progOk _ _ _ hok))
  | some p =>
    simp only [h]
    exact setSelected_progOk _ _ _ (runLines_progOk _ _ (setConverting_progOk _ _ _
      (setProgress_progOk _ p 100 (by omega) hok)))

theorem convLoop_progOk (jobs : List Job) (cAt : Option Nat) (n : Nat) (st : RunSt)
    (hok : ∀ r ∈ st.rows, progOk r) : ∀ r ∈ (convLoop cAt jobs n st).rows, progOk r := by
  induction jobs generalizing n st with
  | nil => exact hok
  | cons j rest ih =>
    rw [convLoop]
    have hok1 : ∀ r ∈ (if cAt = some n then cancelStep st else st).rows, progOk r := by
      by_cases hc : cAt = some n
      · rw [if_pos hc]; exact hok
      · rw [if_neg hc]; exact hok
    generalize (if cAt = some n then cancelStep st else st) = st1 at hok1 ⊢
    by_cases hip : st1.inProgress
    · rw [if_pos hip]
      cases hrow : st1.rows.get? j.rowIdx with
      | none => simp only [hrow]; exact ih (n + 1) st1 hok1
      | some row =>
        simp only [hrow]
        by_cases hsel : row.selected
        · rw [if_pos hsel]; exact ih (n + 1) _ (execJob_progOk st1 j hok1)
        · rw [if_neg hsel]; exact ih (n + 1) st1 hok1
    · rw [if_neg hip]; exact hok1

/-- C5 as stated is false on the code: self._duration is never reset
between jobs.  In a run whose first job reports Duration 00:01:40 and
whose second job emits only the bare line time=00:00:50.00 (its match
carries no Duration group, second conjunct), the progress of the second
row is set to 50 against the stale duration instead of remaining
unset. -/
theorem C5_counterexample :
    ((convert freshSt3 staleJobs (some 2)).rows.get? 1).map Row.progress = some (some 50) ∧
      (lineMatch "time=00:00:50.00".toList).map MRes.hasDur = some false := by
  exact ⟨by decide, by decide⟩

/-- C5 amended: the expected-duration state persists for the whole run
(it is 0 only until the first Duration line since startup).  While the
stored value is still 0, lines without a Duration group leave the
parser state, in particular every progress attribute, unchanged; but
once any earlier job has stored a positive duration, a later bare
timestamp line writes a progress value computed against that stale
duration into the currently active row. -/
theorem C5_duration_not_reset :
    (∀ (ls : List String) (st : RunSt), st.duration = 0 →
        (∀ l ∈ ls, ∀ r, lineMatch l.toList = some r → r.hasDur = false) →
        runLines st ls = st) ∧
      (∀ (st : RunSt) (l : String) (r : MRes) (v p : Nat),
        lineMatch l.toList = some r → r.hasDur = false → pyFloat5 r.sec = some v →
        0 < st.duration → st.currentItr = some p →
        write_to_buffer st l =
          some (setProgress st p
            ((((r.hh * 3600 + r.mm * 60) * 100 + v) * 100 / st.duration : Nat) : ℤ))) :=
  ⟨runLines_no_duration, wtb_progress_eq⟩

/-- Closed instance of C5 amended: with the duration state still 0, the
bare timestamp line of the example leaves the parser state untouched. -/
theorem C5_duration_not_reset_witness :
    runLines parserSt0 ["time=00:00:50.00"] = parserSt0 := by
  refine C5_duration_not_reset.1 ["time=00:00:50.00"] parserSt0 rfl ?_
  intro l hl r hr
  rw [List.mem_singleton] at hl
  subst hl
  have hcalc : lineMatch "time=00:00:50.00".toList =
      some { hasDur := false, hh := 0, mm := 0, sec := "50.00".toList } := by decide
  rw [hr] at hcalc
  rw [Option.some.inj hcalc]

/-- C6 as stated is false on the code: after Duration 00:01:40, the
line time=00:03:20.00 reports an elapsed time beyond the expected
duration and the parser stores the unclamped percentage 200, outside
[0, 100]. -/
theorem C6_counterexample :
    (runLines parserSt0 ["Duration: 00:01:40.00", "time=00:03:20.00"]).rows.map
        Row.progress = [some 200] ∧ ¬ ((200 : ℤ) ≤ 100) := by
  exact ⟨by decide, by decide⟩

/-- C6 amended: every write of the progress attribute during a run
stores a non-negative integer - the parser writes the floor of
elapsed * 100 / duration, which exceeds 100 whenever the elapsed
timestamp exceeds the captured duration, and completion writes exactly
100; so a run preserves the invariant that every stored progress value
is a non-negative integer, with no upper clamp at 100. -/
theorem C6_progress_bounds (st : RunSt) (jobs : List Job) (cAt : Option Nat)
    (hok : ∀ r ∈ st.rows, progOk r) : ∀ r ∈ (convert st jobs cAt).rows, progOk r := by
  simp only [convert]
  have h1 : ∀ r ∈ (convLoop cAt jobs 0
      { st with inProgress := true, spawned := [], termed := [] }).rows, progOk r :=
    convLoop_progOk jobs cAt 0 _ hok
  generalize convLoop cAt jobs 0
      { st with inProgress := true, spawned := [], termed := [] } = st1 at h1 ⊢
  by_cases hip : st1.inProgress
  · rw [if_pos hip]
    cases hitr : st1.currentItr with
    | some p => simp only [hitr]; exact setProgress_progOk _ p 100 (by omega) h1
    | none => simp only [hitr]; exact h1
  · rw [if_neg hip]; exact h1

/-- Closed instance of C6 amended: the row finished by the cancelled
example run carries progress 37, a non-negative value. -/
theorem C6_progress_bounds_witness : (0 : ℤ) ≤ 37 := by
  have h := C6_progress_bounds freshSt2 staleRunAJobs (some 1) (by
    intro r hr
    have hcases : r = sampleRow ∨ r = { sampleRow with file := "/a/b/clip2.mov" } := by
      simpa [freshSt2] using hr
    rcases hcases with rfl | rfl <;> intro n hn <;> exact Option.noConfusion hn)
  have hmem : Row.mk IconKind.video "/a/b/clip.mov" "0:01:40" (some 37) false true ∈
      (convert freshSt2 staleRunAJobs (some 1)).rows := by decide
  exact h _ hmem 37 rfl

/-- Jobs built by do_convert carry their own row index; every job in
the first k of them addresses a row below k. -/
theorem take_align_bound (jobs : List Job) :
    ∀ (k off : Nat),
      (∀ i (h : i < jobs.length), (jobs.get ⟨i, h⟩).rowIdx = off + i) →
      ∀ j ∈ jobs.take k, j.rowIdx < off + k := by
  induction jobs with
  | nil => intro k off _ j hj; simp at hj
  | cons a t ih =>
    intro k off h j hj
    cases k with
    | zero => simp at hj
    | succ k' =>
      rw [List.take_succ_cons] at hj
      rcases List.mem_cons.mp hj with rfl | hj'
      · have h0 := h 0 (by simp)
        simp only [List.get] at h0
        omega
      · have ht : ∀ i (hi : i < t.length), (t.get ⟨i, hi⟩).rowIdx = (off + 1) + i := by
          intro i hi
          have hs := h (i + 1) (by simpa using Nat.succ_lt_succ hi)
          simp only [List.get] at hs
          omega
        have := ih k' (off + 1) ht j hj'
        omega

/-- With cancellation scheduled before iteration n + k and at least
k + 1 jobs, the loop behaves like an uncancelled run of the first k
jobs followed by the cancel action. -/
theorem convLoop_cancel_split (jobs : List Job) :
    ∀ (k n : Nat) (st : RunSt), st.inProgress = true → k < jobs.length →
      convLoop (some (n + k)) jobs n st = cancelStep (convLoop none (jobs.take k) n st) := by
  induction jobs with
  | nil => intro k n st _ hk; simp at hk
  | cons j rest ih =>
    intro k n st hip hk
    cases k with
    | zero =>
      rw [List.take_zero]
      simp only [convLoop]
      rw [Nat.add_zero, if_pos rfl]
      rw [if_neg (by simp [cancelStep])]
    | succ k' =>
      rw [List.take_succ_cons]
      simp only [convLoop]
      rw [if_neg (by simp : ¬ (some (n + (k' + 1)) : Option Nat) = some n)]
      rw [if_neg (by simp : ¬ (none : Option Nat) = some n)]
      rw [if_pos hip, if_pos hip]
      cases hrow : st.rows.get? j.rowIdx with
      | none =>
        simp only [hrow]
        rw [show n + (k' + 1) = (n + 1) + k' by omega]
        exact ih k' (n + 1) st hip (by simpa using hk)
      | some row =>
        simp only [hrow]
        by_cases hsel : row.selected
        · rw [if_pos hsel, if_pos hsel]
          have hip2 : (execJob st j).inProgress = true := (execJob_frame st j).1.trans hip
          rw [show n + (k' + 1) = (n + 1) + k' by omega]
          exact ih k' (n + 1) (execJob st j) hip2 (by simpa using hk)
        · rw [if_neg hsel, if_neg hsel]
          rw [show n + (k' + 1) = (n + 1) + k' by omega]
          exact ih k' (n + 1) st hip (by simpa using hk)

/-- An uncancelled loop never changes the in-progress flag or the
termination-signal log. -/
theorem convLoop_none_frame (jobs : List Job) : ∀ (n : Nat) (st : RunSt),
    (convLoop none jobs n st).inProgress = st.inProgress ∧
      (convLoop none jobs n st).termed = st.termed := by
  induction jobs with
  | nil => intro n st; exact ⟨rfl, rfl⟩
  | cons j rest ih =>
    intro n st
    simp only [convLoop]
    rw [if_neg (by simp : ¬ (none : Option Nat) = some n)]
    by_cases hip : st.inProgress
    · rw [if_pos hip]
      cases hrow : st.rows.get? j.rowIdx with
      | none => simp only [hrow]; exact ih (n + 1) st
      | some row =>
        simp only [hrow]
        by_cases hsel : row.selected
        · rw [if_pos hsel]
          obtain ⟨h1, h2⟩ := ih (n + 1) (execJob st j)
          exact ⟨h1.trans (execJob_frame st j).1, h2.trans (execJob_frame st j).2.1⟩
        · rw [if_neg hsel]; exact ih (n + 1) st
    · rw [if_neg hip]; exact ⟨rfl, rfl⟩

/-- Every command spawned by the loop over jobs whose row indexes are
below k either was already in the log or addresses a row below k. -/
theorem convLoop_none_spawned (k : Nat) (jobs : List Job) :
    ∀ (n : Nat) (st : RunSt), (∀ j ∈ jobs, j.rowIdx < k) →
      ∀ pc ∈ (convLoop none jobs n st).spawned, pc ∈ st.spawned ∨ pc.1 < k := by
  induction jobs with
  | nil => intro n st _ pc hpc; exact Or.inl hpc
  | cons j rest ih =>
    intro n st hjobs pc hpc
    rw [convLoop] at hpc
    rw [if_neg (by simp : ¬ (none : Option Nat) = some n)] at hpc
    by_cases hip : st.inProgress
    · rw [if_pos hip] at hpc
      cases hrow : st.rows.get? j.rowIdx with
      | none =>
        simp only [hrow] at hpc
        exact ih (n + 1) st (fun j' hj' => hjobs j' (List.mem_cons_of_mem j hj')) pc hpc
      | some row =>
        simp only [hrow] at hpc
        by_cases hsel : row.selected
        · rw [if_pos hsel] at hpc
          rcases ih (n + 1) (execJob st j)
              (fun j' hj' => hjobs j' (List.mem_cons_of_mem j hj')) pc hpc with hmem | hlt
          · rw [(execJob_frame st j).2.2.2.2] at hmem
            rcases List.mem_append.mp hmem with h1 | h1
            · exact Or.inl h1
            · have hpc2 : pc = (j.rowIdx, j.cmd) := by simpa using h1
              refine Or.inr ?_
              rw [hpc2]
              exact hjobs j (List.mem_cons_self j rest)
          · exact Or.inr hlt
        · rw [if_neg hsel] at hpc
          exact ih (n + 1) st (fun j' hj' => hjobs j' (List.mem_cons_of_mem j hj')) pc hpc
    · rw [if_neg hip] at hpc
      exact Or.inl hpc

/-- The loop keeps the current-process reference consistent with the
spawn log: once anything has been spawned during the run, the reference
names a spawned process (whatever handle it held before the run). -/
theorem convLoop_none_proc (jobs : List Job) : ∀ (n : Nat) (st : RunSt),
    (st.spawned = [] ∨
      ∃ p c, st.currentProc = some p ∧ (p, c) ∈ st.spawned) →
    (convLoop none jobs n st).spawned = [] ∨
      ∃ p c, (convLoop none jobs n st).currentProc = some p ∧
        (p, c) ∈ (convLoop none jobs n st).spawned := by
  induction jobs with
  | nil => intro n st hinv; exact hinv
  | cons j rest ih =>
    intro n st hinv
    simp only [convLoop]
    rw [if_neg (by simp : ¬ (none : Option Nat) = some n)]
    by_cases hip : st.inProgress
    · rw [if_pos hip]
      cases hrow : st.rows.get? j.rowIdx with
      | none => simp only [hrow]; exact ih (n + 1) st hinv
      | some row =>
        simp only [hrow]
        by_cases hsel : row.selected
        · rw [if_pos hsel]
          refine ih (n + 1) (execJob st j) (Or.inr ⟨j.rowIdx, j.cmd, ?_, ?_⟩)
          · exact (execJob_frame st j).2.2.2.1
          · rw [(execJob_frame st j).2.2.2.2]
            exact List.mem_append_right _ (List.mem_singleton.mpr rfl)
        · rw [if_neg hsel]; exact ih (n + 1) st hinv
    · rw [if_neg hip]; exact hinv

/-- Rows at or beyond k are untouched by a loop over jobs addressing
rows below k, provided the current-row reference also stays below k. -/
theorem convLoop_bounded (k : Nat) (jobs : List Job) (cAt : Option Nat) :
    ∀ (n : Nat) (st : RunSt),
      (∀ j ∈ jobs, j.rowIdx < k) →
      (∀ p, st.currentItr = some p → p < k) →
      (∀ i, k ≤ i → (convLoop cAt jobs n st).rows.get? i = st.rows.get? i) ∧
        (∀ p, (convLoop cAt jobs n st).currentItr = some p → p < k) := by
  induction jobs with
  | nil => intro n st _ hitr; exact ⟨fun i _ => rfl, hitr⟩
  | cons j rest ih =>
    intro n st hjobs hitr
    rw [convLoop]
    have hitr1 : ∀ p, (if cAt = some n then cancelStep st else st).currentItr = some p → p < k := by
      by_cases hc : cAt = some n
      · rw [if_pos hc]; exact hitr
      · rw [if_neg hc]; exact hitr
    have hrows1 : ∀ i, (if cAt = some n then cancelStep st else st).rows.get? i = st.rows.get? i := by
      by_cases hc : cAt = some n
      · rw [if_pos hc]; intro i; rfl
      · rw [if_neg hc]; intro i; rfl
    generalize (if cAt = some n then cancelStep st else st) = st1 at hitr1 hrows1 ⊢
    have htail : ∀ j' ∈ rest, j'.rowIdx < k := fun j' hj' => hjobs j' (List.mem_cons_of_mem j hj')
    by_cases hip : st1.inProgress
    · rw [if_pos hip]
      cases hrow : st1.rows.get? j.rowIdx with
      | none =>
        simp only [hrow]
        obtain ⟨ha, hb⟩ := ih (n + 1) st1 htail hitr1
        exact ⟨fun i hi => (ha i hi).trans (hrows1 i), hb⟩
      | some row =>
        simp only [hrow]
        by_cases hsel : row.selected
        · rw [if_pos hsel]
          have hjk : j.rowIdx < k := hjobs j (List.mem_cons_self j rest)
          have hitr2 : ∀ p, (execJob st1 j).currentItr = some p → p < k := by
            intro p hp
            rw [(execJob_frame st1 j).2.2.1] at hp
            have := Option.some.inj hp
            omega
          obtain ⟨ha, hb⟩ := ih (n + 1) (execJob st1 j) htail hitr2
          refine ⟨fun i hi => (ha i hi).trans ?_, hb⟩
          have hne : j.rowIdx ≠ i := by omega
          have hni : st1.currentItr ≠ some i := fun he =>
            absurd (hitr1 i he) (by omega)
          rw [execJob_rows_other st1 j i hne hni]
          exact hrows1 i
        · rw [if_neg hsel]
          obtain ⟨ha, hb⟩ := ih (n + 1) st1 htail hitr1
          exact ⟨fun i hi => (ha i hi).trans (hrows1 i), hb⟩
    · rw [if_neg hip]
      exact ⟨fun i _ => hrows1 i, hitr1⟩

/-- Selected flags of rows at or beyond k survive a loop over jobs
addressing rows below k: only set_value on the SELECTED column of an
executed row (always below k) can change one, whatever row or process
references the run started with. -/
theorem convLoop_selected_other (k : Nat) (jobs : List Job) (cAt : Option Nat) :
    ∀ (n : Nat) (st : RunSt), (∀ j ∈ jobs, j.rowIdx < k) →
      ∀ i, k ≤ i →
        ((convLoop cAt jobs n st).rows.get? i).map Row.selected =
          (st.rows.get? i).map Row.selected := by
  induction jobs with
  | nil => intro n st _ i _; rfl
  | cons j rest ih =>
    intro n st hjobs i hi
    rw [convLoop]
    have e1 : ((if cAt = some n then cancelStep st else st).rows.get? i).map Row.selected
        = (st.rows.get? i).map Row.selected := by
      by_cases hc : cAt = some n
      · rw [if_pos hc]; rfl
      · rw [if_neg hc]
    generalize (if cAt = some n then cancelStep st else st) = st1 at e1 ⊢
    have htail : ∀ j' ∈ rest, j'.rowIdx < k := fun j' hj' => hjobs j' (List.mem_cons_of_mem j hj')
    by_cases hip : st1.inProgress
    · rw [if_pos hip]
      cases hrow : st1.rows.get? j.rowIdx with
      | none =>
        simp only [hrow]
        exact (ih (n + 1) st1 htail i hi).trans e1
      | some row =>
        simp only [hrow]
        by_cases hsel : row.selected
        · rw [if_pos hsel]
          have hne : j.rowIdx ≠ i := by
            have := hjobs j (List.mem_cons_self j rest)
            omega
          exact ((ih (n + 1) (execJob st1 j) htail i hi).trans
            (execJob_selected_other st1 j i hne)).trans e1
        · rw [if_neg hsel]
          exact (ih (n + 1) st1 htail i hi).trans e1
    · rw [if_neg hip]
      exact e1

/-- C7: cancelling between jobs (before iteration k of a run over the
aligned jobs do_convert builds) clears the in-progress flag, leaves
every process spawned during the run addressing a row below k, leaves
the selected flag of every row from k on exactly as it was before the
run, and sends exactly one termination signal, addressed to a spawned
process, whenever anything was spawned. -/
theorem C7_cancel_between_jobs (st : RunSt) (jobs : List Job) (k : Nat)
    (halign : ∀ i (h : i < jobs.length), (jobs.get ⟨i, h⟩).rowIdx = i)
    (hk : k < jobs.length) :
    (convert st jobs (some k)).inProgress = false ∧
      (∀ pc ∈ (convert st jobs (some k)).spawned, pc.1 < k) ∧
      (∀ i, k ≤ i →
        (((convert st jobs (some k)).rows.get? i).map Row.selected =
          (st.rows.get? i).map Row.selected)) ∧
      ((convert st jobs (some k)).spawned ≠ [] →
        ∃ p, (convert st jobs (some k)).termed = [p] ∧
          ∃ c, (p, c) ∈ (convert st jobs (some k)).spawned) := by
  simp only [convert]
  have hsplit := convLoop_cancel_split jobs k 0
      { st with inProgress := true, spawned := [], termed := [] } rfl hk
  rw [Nat.zero_add] at hsplit
  rw [hsplit, if_neg (by simp [cancelStep])]
  have hjobs : ∀ j ∈ jobs.take k, j.rowIdx < k := by
    have hb := take_align_bound jobs k 0
      (fun i h => by rw [Nat.zero_add]; exact halign i h)
    intro j hj
    have := hb j hj
    omega
  have hspawn := convLoop_none_spawned k (jobs.take k) 0
    { st with inProgress := true, spawned := [], termed := [] } hjobs
  have hframe := convLoop_none_frame (jobs.take k) 0
    { st with inProgress := true, spawned := [], termed := [] }
  have hproc2 := convLoop_none_proc (jobs.take k) 0
    { st with inProgress := true, spawned := [], termed := [] } (Or.inl rfl)
  refine ⟨rfl, ?_, ?_, ?_⟩
  · intro pc hpc
    rcases hspawn pc hpc with hin | hlt
    · exact absurd hin (List.not_mem_nil pc)
    · exact hlt
  · intro i hi
    exact convLoop_selected_other k (jobs.take k) none 0
      { st with inProgress := true, spawned := [], termed := [] } hjobs i hi
  · intro hne
    rcases hproc2 with hempty | ⟨p, c, hpp, hmem⟩
    · exact absurd hempty hne
    · refine ⟨p, ?_, c, hmem⟩
      show (convLoop none (jobs.take k) 0
        { st with inProgress := true, spawned := [], termed := [] }).termed ++ _ = [p]
      rw [hpp, hframe.2]
      rfl

/-- Closed instance of C7: cancelling the two-job example run before
its second iteration clears the flag and leaves the second row still
selected. -/
theorem C7_cancel_between_jobs_witness :
    (convert freshSt2 staleRunAJobs (some 1)).inProgress = false ∧
      ((convert freshSt2 staleRunAJobs (some 1)).rows.get? 1).map Row.selected =
        (freshSt2.rows.get? 1).map Row.selected := by
  have h := C7_cancel_between_jobs freshSt2 staleRunAJobs 1 (by decide) (by decide)
  exact ⟨h.1, h.2.2.1 1 le_rfl⟩

/-- The loop is blind to exit codes: runs over job lists that agree
after the exit status is scrubbed are identical. -/
theorem convLoop_code_blind (jobs1 : List Job) :
    ∀ (jobs2 : List Job) (cAt : Option Nat) (n : Nat) (st : RunSt),
      jobs1.map eraseCode = jobs2.map eraseCode →
      convLoop cAt jobs1 n st = convLoop cAt jobs2 n st := by
  induction jobs1 with
  | nil =>
    intro jobs2 cAt n st h
    cases jobs2 with
    | nil => rfl
    | cons j2 r2 => simp at h
  | cons j rest ih =>
    intro jobs2 cAt n st h
    cases jobs2 with
    | nil => simp at h
    | cons j2 rest2 =>
      obtain ⟨i1, c1, s1, e1⟩ := j
      obtain ⟨i2, c2, s2, e2⟩ := j2
      simp only [List.map_cons, List.cons.injEq, eraseCode, Job.mk.injEq] at h
      obtain ⟨⟨h1, h2, h3, -⟩, hrest⟩ := h
      subst h1
      subst h2
      subst h3
      simp only [convLoop]
      have hexec : ∀ s' : RunSt,
          execJob s' ⟨i1, c1, s1, e1⟩ = execJob s' ⟨i1, c1, s1, e2⟩ := fun s' => rfl
      rw [hexec]
      generalize (if cAt = some n then cancelStep st else st) = st1
      by_cases hip : st1.inProgress
      · rw [if_pos hip, if_pos hip]
        cases hrow : st1.rows.get? i1 with
        | none => simp only [hrow]; exact ih rest2 cAt (n + 1) st1 hrest
        | some row =>
          simp only [hrow]
          by_cases hsel : row.selected
          · rw [if_pos hsel, if_pos hsel]
            exact ih rest2 cAt (n + 1) _ hrest
          · rw [if_neg hsel, if_neg hsel]
            exact ih rest2 cAt (n + 1) st1 hrest
      · rw [if_neg hip, if_neg hip]

/-- C8: two runs that differ only in the exit status of their external
processes produce identical final states - the loop never reads the
value wait returns, so success and failure are indistinguishable to
the queue. -/
theorem C8_exit_code_ignored (st : RunSt) (jobs1 jobs2 : List Job) (cAt : Option Nat)
    (h : jobs1.map eraseCode = jobs2.map eraseCode) :
    convert st jobs1 cAt = convert st jobs2 cAt := by
  simp only [convert]
  rw [convLoop_code_blind jobs1 jobs2 cAt 0
    { st with inProgress := true, spawned := [], termed := [] } h]

/-- Closed instance of C8: a failing process (exit code 7) leaves the
same state as a succeeding one. -/
theorem C8_exit_code_ignored_witness :
    convert freshSt2 [⟨0, ["ffmpeg"], [], 0⟩] none =
      convert freshSt2 [⟨0, ["ffmpeg"], [], 7⟩] none :=
  C8_exit_code_ignored freshSt2 [⟨0, ["ffmpeg"], [], 0⟩] [⟨0, ["ffmpeg"], [], 7⟩] none
    (by decide)

/-- A row that is unselected (and not the current row, and without a
spawn entry) stays that way through the whole loop and is never
touched. -/
theorem convLoop_skip (i : Nat) (jobs : List Job) :
    ∀ (cAt : Option Nat) (n : Nat) (st : RunSt),
      (st.rows.get? i).map Row.selected = some false →
      st.currentItr ≠ some i →
      (∀ c, (i, c) ∉ st.spawned) →
      (convLoop cAt jobs n st).rows.get? i = st.rows.get? i ∧
        (convLoop cAt jobs n st).currentItr ≠ some i ∧
        ∀ c, (i, c) ∉ (convLoop cAt jobs n st).spawned := by
  induction jobs with
  | nil => intro cAt n st hsel hitr hsp; exact ⟨rfl, hitr, hsp⟩
  | cons j rest ih =>
    intro cAt n st hsel hitr hsp
    rw [convLoop]
    have e1 : (if cAt = some n then cancelStep st else st).rows.get? i = st.rows.get? i := by
      by_cases hc : cAt = some n
      · rw [if_pos hc]; rfl
      · rw [if_neg hc]
    have e2 : (if cAt = some n then cancelStep st else st).currentItr = st.currentItr := by
      by_cases hc : cAt = some n
      · rw [if_pos hc]; rfl
      · rw [if_neg hc]
    have e3 : (if cAt = some n then cancelStep st else st).spawned = st.spawned := by
      by_cases hc : cAt = some n
      · rw [if_pos hc]; rfl
      · rw [if_neg hc]
    generalize (if cAt = some n then cancelStep st else st) = st1 at e1 e2 e3 ⊢
    have hsel1 : (st1.rows.get? i).map Row.selected = some false := by rw [e1]; exact hsel
    have hitr1 : st1.currentItr ≠ some i := by rw [e2]; exact hitr
    have hsp1 : ∀ c, (i, c) ∉ st1.spawned := by rw [e3]; exact hsp
    by_cases hip : st1.inProgress
    · rw [if_pos hip]
      cases hrow : st1.rows.get? j.rowIdx with
      | none =>
        simp only [hrow]
        obtain ⟨a, b, c⟩ := ih cAt (n + 1) st1 hsel1 hitr1 hsp1
        exact ⟨a.trans e1, b, c⟩
      | some row =>
        simp only [hrow]
        by_cases hsel2 : row.selected
        · rw [if_pos hsel2]
          have hne : j.rowIdx ≠ i := by
            intro he
            subst he
            rw [hrow] at hsel1
            have hfalse : row.selected = false := by simpa using hsel1
            rw [hsel2] at hfalse
            exact Bool.noConfusion hfalse
          have hselE : ((execJob st1 j).rows.get? i).map Row.selected = some false := by
            rw [execJob_rows_other st1 j i hne hitr1]; exact hsel1
          have hitrE : (execJob st1 j).currentItr ≠ some i := by
            rw [(execJob_frame st1 j).2.2.1]
            intro he
            exact hne (Option.some.inj he)
          have hspE : ∀ c, (i, c) ∉ (execJob st1 j).spawned := by
            intro c hc
            rw [(execJob_frame st1 j).2.2.2.2] at hc
            rcases List.mem_append.mp hc with h1 | h1
            · exact hsp1 c h1
            · have h2 : (i, c) = (j.rowIdx, j.cmd) := by simpa using h1
              exact hne (congrArg Prod.fst h2).symm
          obtain ⟨a, b, c⟩ := ih cAt (n + 1) (execJob st1 j) hselE hitrE hspE
          refine ⟨?_, b, c⟩
          rw [a, execJob_rows_other st1 j i hne hitr1]
          exact e1
        · rw [if_neg hsel2]
          obtain ⟨a, b, c⟩ := ih cAt (n + 1) st1 hsel1 hitr1 hsp1
          exact ⟨a.trans e1, b, c⟩
    · rw [if_neg hip]
      exact ⟨e1, hitr1, hsp1⟩

/-- C9 amended: in a run that starts with no stale current-row
reference, a row that is unselected when the loop reaches it is
skipped entirely - no process is ever spawned for it and the row, with
all its fields, is exactly as before the run.  (A run that follows a
cancelled run can instead overwrite the stale previously current row,
see the counterexample.) -/
theorem C9_unselected_skipped (st : RunSt) (jobs : List Job) (cAt : Option Nat) (i : Nat)
    (hitr : st.currentItr = none)
    (hsel : (st.rows.get? i).map Row.selected = some false) :
    (convert st jobs cAt).rows.get? i = st.rows.get? i ∧
      ∀ c, (i, c) ∉ (convert st jobs cAt).spawned := by
  simp only [convert]
  have hitr0 : ({ st with inProgress := true, spawned := [], termed := [] } : RunSt).currentItr
      = none := hitr
  obtain ⟨a, b, c⟩ := convLoop_skip i jobs cAt 0
    { st with inProgress := true, spawned := [], termed := [] }
    hsel (by rw [hitr0]; exact fun he => Option.noConfusion he) (by simp)
  generalize hL : convLoop cAt jobs 0
      { st with inProgress := true, spawned := [], termed := [] } = L at a b c ⊢
  by_cases hip : L.inProgress
  · rw [if_pos hip]
    cases hitr2 : L.currentItr with
    | some p =>
      simp only [hitr2]
      have hpi : p ≠ i := fun he => b (hitr2.trans (by rw [he]))
      constructor
      · rw [setProgress_rows_other _ p 100 i hpi]
        exact a
      · exact c
    | none =>
      simp only [hitr2]
      exact ⟨a, c⟩
  · rw [if_neg hip]
    exact ⟨a, c⟩

/-- Closed instance of C9 amended: in the clean second run, the
unselected second row keeps its state. -/
theorem C9_unselected_skipped_witness :
    (convert { freshSt2 with rows := [sampleRow,
        { sampleRow with file := "/a/b/clip2.mov", selected := false }] }
      staleRunBJobs none).rows.get? 1 =
      some { sampleRow with file := "/a/b/clip2.mov", selected := false } := by
  have h := C9_unselected_skipped
    { freshSt2 with rows := [sampleRow,
        { sampleRow with file := "/a/b/clip2.mov", selected := false }] }
    staleRunBJobs none 1 rfl (by decide)
  exact h.1.trans (by decide)

/-- C9 as stated is false on the code across runs: after a cancelled
run (progress 37 left on row 0, row 0 deselected, current-row
reference still pointing at it), a second run reaches row 0 first,
skips it as unselected, but then overwrites its progress to 100
through the stale reference when the first process of the new run is
spawned. -/
theorem C9_counterexample :
    ((convert freshSt2 staleRunAJobs (some 1)).rows.get? 0).map Row.progress =
        some (some 37) ∧
      ((convert freshSt2 staleRunAJobs (some 1)).rows.get? 0).map Row.selected =
        some false ∧
      ((convert (convert freshSt2 staleRunAJobs (some 1)) staleRunBJobs none).rows.get?
          0).map Row.progress = some (some 100) := by
  exact ⟨by decide, by decide, by decide⟩
